import Mathlib

/-!
Verification development for the wcosmo flat-wCDM cosmology module
(`wcosmo/wcosmo.py`).

The module computes distances, times and volumes of a flat wCDM cosmology
and inverts the luminosity-distance relation by linear interpolation over a
fixed log-spaced redshift grid.  All arithmetic is modelled over the real
numbers `ℝ`; Python float powers `x ** 0.5` and `x ** (3*(1+w0))` are
modelled with `Real.rpow`, and integer powers with monoid powers.

Modelling conventions, stated once here:

* The Padé/Taylor integral engine `analytic_integral` lives in the module
  `wcosmo.taylor`, which is outside the excerpt and is treated by the
  specification as a black box.  Every definition that uses it therefore
  takes the engine as an explicit function argument
  `analytic_integral : ℝ → ℝ → ℝ → ℝ → ℝ` (arguments: z, Om0, w0, zpower),
  and all theorems about those definitions hold for an arbitrary engine.

* `numpy` operations are modelled by their documented behaviour on real
  numbers: `np.logspace(a, b, n)` is the list of `n` points
  `10 ^ (a + (b - a) * i / (n - 1))`; the scalar `np.interp(x, xp, fp)`
  with clamp values `left`/`right` first returns `right` when
  `x > xp[last]`, then `left` when `x < xp[first]` (these two checks in
  this order, exactly as in numpy's `binary_search_with_guess`), and
  otherwise linearly interpolates inside the first segment
  `xp[j] ≤ x ≤ xp[j+1]`, which for the strictly increasing `xp` that
  `np.interp` is documented for is the unique containing segment.

* `np.log10` of a non-positive number is NaN (or -inf), which poisons the
  whole interpolation and makes `z_at_value` return NaN.  A NaN result is
  the absence of a real value, modelled by `Option ℝ`: `z_at_value`
  returns `none` when either grid bound is non-positive, and `some` of the
  interpolated real otherwise.

* A Python call with a keyword argument that is not a parameter of the
  callee raises `TypeError`.  The call site of `inv_efunc` inside
  `hubble_parameter` supplies keywords, so that call is modelled
  explicitly: keyword names are an inductive type, the call checks the
  supplied names against the parameter list of `inv_efunc` and yields
  `none` (no value: the raised `TypeError`) on an unexpected keyword.
  The decorators `autodoc` and `maybe_jit` come from the out-of-excerpt
  `wcosmo.utils`; per the specification (sections 5 and 9) they are pure
  documentation/performance wrappers with no observable semantic
  difference, so they are modelled as identities and in particular do not
  swallow keyword arguments.
-/

namespace wcosmo

/-- Modelled from the spec: fixed physical constant, the speed of light in
km/s, from the out-of-excerpt `wcosmo.utils` module.  No claim depends on
its numeric value. -/
noncomputable def SPEED_OF_LIGHT_KM_PER_S : ℝ := 299792.458

/-- Modelled from the spec: fixed physical constant converting 1/(km/s/Mpc)
to Gyr, from the out-of-excerpt `wcosmo.utils` module.  No claim depends on
its numeric value. -/
noncomputable def GYR_KM_PER_S_MPC : ℝ := 977.79222168

/-- The type of the out-of-excerpt integral engine
`analytic_integral(z, Om0, w0, zpower)` of `wcosmo.taylor`: the spec treats
it as a black box, so definitions take an arbitrary such function. -/
abbrev IntegralEngine : Type := ℝ → ℝ → ℝ → ℝ → ℝ

/-- `efunc(z, Om0, w0)`:
`(Om0 * zp1**3 + (1 - Om0) * zp1 ** (3 * (1 + w0))) ** 0.5` with
`zp1 = 1 + z`. -/
noncomputable def efunc (z Om0 w0 : ℝ) : ℝ :=
  (Om0 * (1 + z) ^ 3 + (1 - Om0) * (1 + z) ^ (3 * (1 + w0))) ^ (0.5 : ℝ)

/-- `inv_efunc(z, Om0, w0) = 1 / efunc(z, Om0, w0)`. -/
noncomputable def inv_efunc (z Om0 w0 : ℝ) : ℝ :=
  1 / efunc z Om0 w0

/-- `hubble_distance(H0) = SPEED_OF_LIGHT_KM_PER_S / H0`. -/
noncomputable def hubble_distance (H0 : ℝ) : ℝ :=
  SPEED_OF_LIGHT_KM_PER_S / H0

/-- `hubble_time(H0) = GYR_KM_PER_S_MPC / H0`. -/
noncomputable def hubble_time (H0 : ℝ) : ℝ :=
  GYR_KM_PER_S_MPC / H0

/-- Keyword-argument names occurring in the module (Python identifiers). -/
inductive PyKw where
  | z
  | H0
  | Om0
  | w0
deriving DecidableEq

/-- The parameters of `def inv_efunc(z, Om0, w0=-1)` in the source. -/
def inv_efunc_params : List PyKw := [PyKw.z, PyKw.Om0, PyKw.w0]

/-- A Python keyword call `inv_efunc(**kwargs)`.  It succeeds only when
every supplied keyword is a parameter of `inv_efunc` and the two required
parameters `z` and `Om0` are supplied; `w0` defaults to `-1`.  An
unexpected keyword raises `TypeError`, modelled as `none`. -/
noncomputable def inv_efunc_kwcall (kwargs : List (PyKw × ℝ)) : Option ℝ :=
  if kwargs.all (fun kv => inv_efunc_params.contains kv.1) then
    match kwargs.lookup PyKw.z, kwargs.lookup PyKw.Om0 with
    | some z, some Om0 => some (inv_efunc z Om0 ((kwargs.lookup PyKw.w0).getD (-1)))
    | _, _ => none
  else none

/-- `hubble_parameter(z, H0, Om0, w0)`, source line 145:
`hubble_distance(H0=H0) * inv_efunc(z=z, H0=H0, Om0=Om0, w0=w0)`.
Note the call supplies the keyword `H0` to `inv_efunc`. -/
noncomputable def hubble_parameter (z H0 Om0 w0 : ℝ) : Option ℝ :=
  (inv_efunc_kwcall [(PyKw.z, z), (PyKw.H0, H0), (PyKw.Om0, Om0), (PyKw.w0, w0)]).map
    fun invE => hubble_distance H0 * invE

/-- `comoving_distance(z, H0, Om0, w0) = analytic_integral(z, Om0, w0) *
hubble_distance(H0)` (zpower defaults to 0). -/
noncomputable def comoving_distance (analytic_integral : IntegralEngine)
    (z H0 Om0 w0 : ℝ) : ℝ :=
  analytic_integral z Om0 w0 0 * hubble_distance H0

/-- `lookback_time(z, H0, Om0, w0) = analytic_integral(z, Om0, w0,
zpower=-1) * hubble_time(H0)`. -/
noncomputable def lookback_time (analytic_integral : IntegralEngine)
    (z H0 Om0 w0 : ℝ) : ℝ :=
  analytic_integral z Om0 w0 (-1) * hubble_time H0

/-- `absorption_distance(z, Om0, w0) = analytic_integral(z, Om0, w0,
zpower=2)`. -/
noncomputable def absorption_distance (analytic_integral : IntegralEngine)
    (z Om0 w0 : ℝ) : ℝ :=
  analytic_integral z Om0 w0 2

/-- `luminosity_distance(z, H0, Om0, w0) = (1 + z) * comoving_distance(z,
H0, Om0, w0)`. -/
noncomputable def luminosity_distance (analytic_integral : IntegralEngine)
    (z H0 Om0 w0 : ℝ) : ℝ :=
  (1 + z) * comoving_distance analytic_integral z H0 Om0 w0

/-- `dDLdz(z, H0, Om0, w0) = dC + (1 + z) * D_H * Ez_i`. -/
noncomputable def dDLdz (analytic_integral : IntegralEngine)
    (z H0 Om0 w0 : ℝ) : ℝ :=
  comoving_distance analytic_integral z H0 Om0 w0 +
    (1 + z) * hubble_distance H0 * inv_efunc z Om0 w0

/-- `differential_comoving_volume(z, H0, Om0, w0) = dC**2 * D_H * Ez_i`. -/
noncomputable def differential_comoving_volume (analytic_integral : IntegralEngine)
    (z H0 Om0 w0 : ℝ) : ℝ :=
  comoving_distance analytic_integral z H0 Om0 w0 ^ 2 * hubble_distance H0 *
    inv_efunc z Om0 w0

/-- `comoving_volume(z, H0, Om0, w0) = 4 / 3 * pi * comoving_distance(z,
H0, Om0, w0) ** 3`. -/
noncomputable def comoving_volume (analytic_integral : IntegralEngine)
    (z H0 Om0 w0 : ℝ) : ℝ :=
  4 / 3 * Real.pi * comoving_distance analytic_integral z H0 Om0 w0 ^ 3

/-- `np.logspace(a, b, n)`: `n` points `10 ** (a + (b - a) * i / (n - 1))`
for `i = 0, …, n-1` (base-10 of `np.linspace(a, b, n)`). -/
noncomputable def logspace (a b : ℝ) (n : ℕ) : List ℝ :=
  (List.range n).map fun i : ℕ => (10 : ℝ) ^ (a + (b - a) * (i : ℝ) / ((n : ℝ) - 1))

/-- The segment scan of scalar `np.interp` after its two boundary checks:
walk the sample points (pairs of x-sample and y-sample) and linearly
interpolate inside the first segment whose right x-sample is `≥ x`; past
the final point return the last y-sample.  On the strictly increasing
x-samples `np.interp` is documented for this is exactly numpy's
binary-search interpolation. -/
noncomputable def interpSeg (x : ℝ) : List (ℝ × ℝ) → ℝ
  | [] => 0
  | [p] => p.2
  | p :: q :: ps =>
    if x ≤ q.1 then p.2 + (x - p.1) * (q.2 - p.2) / (q.1 - p.1)
    else interpSeg x (q :: ps)

/-- Scalar `np.interp(x, xp, fp, left, right)` on the list of pairs
`zip xp fp`: return `right` when `x` exceeds the last x-sample, else
`left` when `x` is below the first x-sample (numpy performs these two
checks in this order), else interpolate by the segment scan. -/
noncomputable def interp (x : ℝ) (pts : List (ℝ × ℝ)) (l r : ℝ) : ℝ :=
  match pts with
  | [] => l
  | p :: ps =>
    if x > (ps.getLastD p).1 then r
    else if x < p.1 then l
    else interpSeg x (p :: ps)

/-- `z_at_value(func, fval, zmin, zmax)`:
`zs = np.logspace(np.log10(zmin), np.log10(zmax), 1000)` followed by
`np.interp(fval, func(zs), zs, left=zmin, right=zmax)`.
`np.log10` of a non-positive bound is NaN or -inf, which poisons the grid and
the interpolation; the resulting NaN output carries no real value and is
modelled as `none`. -/
noncomputable def z_at_value (func : ℝ → ℝ) (fval zmin zmax : ℝ) : Option ℝ :=
  if 0 < zmin ∧ 0 < zmax then
    some (interp fval
      ((logspace (Real.logb 10 zmin) (Real.logb 10 zmax) 1000).map fun z => (func z, z))
      zmin zmax)
  else none

/-- `detector_to_source_frame(m1z, m2z, dL, H0, Om0, w0, zmin, zmax)`:
`z = z_at_value(luminosity_distance, dL, zmin, zmax, H0=H0, Om0=Om0,
w0=w0)`, then `(m1z / (1 + z), m2z / (1 + z), z)`.  A NaN redshift (see
`z_at_value`) propagates to all three outputs. -/
noncomputable def detector_to_source_frame (analytic_integral : IntegralEngine)
    (m1z m2z dL H0 Om0 w0 zmin zmax : ℝ) : Option (ℝ × ℝ × ℝ) :=
  match z_at_value
      (fun z => luminosity_distance analytic_integral z H0 Om0 w0) dL zmin zmax with
  | some z => some (m1z / (1 + z), m2z / (1 + z), z)
  | none => none

/-- `source_to_detector_frame(m1, m2, z, H0, Om0, w0) = (m1 * (1 + z),
m2 * (1 + z), luminosity_distance(z, H0, Om0, w0))`. -/
noncomputable def source_to_detector_frame (analytic_integral : IntegralEngine)
    (m1 m2 z H0 Om0 w0 : ℝ) : ℝ × ℝ × ℝ :=
  (m1 * (1 + z), m2 * (1 + z), luminosity_distance analytic_integral z H0 Om0 w0)

/-- The `FlatwCDM` configuration record: `{H0, Om0, w0, zmin, zmax, name}`
(the lazily-defaulted `meta` mapping holds no behaviour and is omitted). -/
structure FlatwCDM where
  H0 : ℝ
  Om0 : ℝ
  w0 : ℝ
  zmin : ℝ
  zmax : ℝ
  name : Option String

/-- Method `FlatwCDM.hubble_distance`: `hubble_distance(self.H0)`. -/
noncomputable def FlatwCDM.hubble_distance (c : FlatwCDM) : ℝ :=
  wcosmo.hubble_distance c.H0

/-- Method `FlatwCDM.efunc(z)`: `efunc(z, self.Om0, self.w0)`. -/
noncomputable def FlatwCDM.efunc (c : FlatwCDM) (z : ℝ) : ℝ :=
  wcosmo.efunc z c.Om0 c.w0

/-- Method `FlatwCDM.inv_efunc(z)`: `inv_efunc(z, self.Om0, self.w0)`. -/
noncomputable def FlatwCDM.inv_efunc (c : FlatwCDM) (z : ℝ) : ℝ :=
  wcosmo.inv_efunc z c.Om0 c.w0

/-- Method `FlatwCDM.luminosity_distance(z)`:
`luminosity_distance(z, **self._kwargs)`. -/
noncomputable def FlatwCDM.luminosity_distance (analytic_integral : IntegralEngine)
    (c : FlatwCDM) (z : ℝ) : ℝ :=
  wcosmo.luminosity_distance analytic_integral z c.H0 c.Om0 c.w0

/-- Method `FlatwCDM.dLdH(z)`:
`self.luminosity_distance(z) / self.hubble_distance`. -/
noncomputable def FlatwCDM.dLdH (analytic_integral : IntegralEngine)
    (c : FlatwCDM) (z : ℝ) : ℝ :=
  FlatwCDM.luminosity_distance analytic_integral c z / FlatwCDM.hubble_distance c

/-- Method `FlatwCDM.comoving_distance(z)`:
`comoving_distance(z, **self._kwargs)`. -/
noncomputable def FlatwCDM.comoving_distance (analytic_integral : IntegralEngine)
    (c : FlatwCDM) (z : ℝ) : ℝ :=
  wcosmo.comoving_distance analytic_integral z c.H0 c.Om0 c.w0

/-- Method `FlatwCDM.lookback_time(z)`:
`lookback_time(z, **self._kwargs)`. -/
noncomputable def FlatwCDM.lookback_time (analytic_integral : IntegralEngine)
    (c : FlatwCDM) (z : ℝ) : ℝ :=
  wcosmo.lookback_time analytic_integral z c.H0 c.Om0 c.w0

/-- Method `FlatwCDM.age(z, zmax=1e5)`:
`self.lookback_time(zmax) - self.lookback_time(z)`. -/
noncomputable def FlatwCDM.age (analytic_integral : IntegralEngine)
    (c : FlatwCDM) (z zmax : ℝ) : ℝ :=
  FlatwCDM.lookback_time analytic_integral c zmax -
    FlatwCDM.lookback_time analytic_integral c z

/-- `FlatLambdaCDM(H0, Om0, zmin, zmax, name)`: calls the `FlatwCDM`
constructor with `w0` fixed to `-1` (Python `super().__init__(H0=H0,
Om0=Om0, w0=-1, zmin=zmin, zmax=zmax, name=name, meta=meta)`). -/
noncomputable def FlatLambdaCDM (H0 Om0 zmin zmax : ℝ) (name : Option String) :
    FlatwCDM :=
  FlatwCDM.mk H0 Om0 (-1) zmin zmax name

/-- Minimum of a list of reals (0 for the empty list, which never occurs
in its uses below). -/
noncomputable def listMin : List ℝ → ℝ
  | [] => 0
  | a :: rest => rest.foldl min a

/-- Maximum of a list of reals (0 for the empty list, which never occurs
in its uses below). -/
noncomputable def listMax : List ℝ → ℝ
  | [] => 0
  | a :: rest => rest.foldl max a

/-- Modelled from the spec, section 4.3: the grid of "1000 points
log-uniformly spaced between zmin and zmax". -/
noncomputable def specGrid (zmin zmax : ℝ) : List ℝ :=
  (List.range 1000).map fun i : ℕ =>
    (10 : ℝ) ^ (Real.logb 10 zmin +
      (Real.logb 10 zmax - Real.logb 10 zmin) * (i : ℝ) / 999)

/-- Modelled from the spec, section 4.3: "linearly interpolate fval against
the grid of function-values to get z" — walk the sample points and linearly
interpolate inside the first segment whose two x-samples enclose `x`
(in either order, so a monotonically decreasing value grid interpolates
too); past the final point return the last y-sample. -/
noncomputable def interpSegSpec (x : ℝ) : List (ℝ × ℝ) → ℝ
  | [] => 0
  | [p] => p.2
  | p :: q :: ps =>
    if (p.1 ≤ x ∧ x ≤ q.1) ∨ (q.1 ≤ x ∧ x ≤ p.1) then
      p.2 + (x - p.1) * (q.2 - p.2) / (q.1 - p.1)
    else interpSegSpec x (q :: ps)

/-- Modelled from the spec, section 4.3 (the procedure claim C2 ascribes to
`z_at_value` at the default bounds): build the 1000-point log-uniform grid,
evaluate `func` on it, and return the linear interpolation of `fval`
against the grid of function values, clamping to `zmin` for targets below
the grid's minimum function value and to `zmax` for targets above its
maximum. -/
noncomputable def z_at_value_claimed (func : ℝ → ℝ) (fval zmin zmax : ℝ) : ℝ :=
  if fval < listMin ((specGrid zmin zmax).map func) then zmin
  else if fval > listMax ((specGrid zmin zmax).map func) then zmax
  else interpSegSpec fval ((specGrid zmin zmax).map fun z => (func z, z))

/-- Claim C1 (code evaluated at the failing input): `hubble_parameter(0, 70,
0.3, -1)` produces no value.  Line 145 passes the keyword `H0` to
`inv_efunc`, whose parameters are only `(z, Om0, w0)`, so the Python call
raises `TypeError` instead of returning
`hubble_distance(H0) * inv_efunc(z, Om0, w0)`. -/
theorem hubble_parameter_typeerror : hubble_parameter 0 70 (0.3) (-1) = none := by
  rfl

/-- Claim C3: for every integral engine and all `z, H0, Om0, w0`,
`luminosity_distance(z, H0, Om0, w0) = (1 + z) * comoving_distance(z, H0,
Om0, w0)` exactly. -/
theorem luminosity_distance_eq_one_add_z_mul_comoving
    (analytic_integral : IntegralEngine) (z H0 Om0 w0 : ℝ) :
    luminosity_distance analytic_integral z H0 Om0 w0 =
      (1 + z) * comoving_distance analytic_integral z H0 Om0 w0 := rfl

/-- Claim C4: for every integral engine and all arguments,
`detector_to_source_frame` computes `z` by applying `z_at_value` to
`luminosity_distance` with target `dL` over `[zmin, zmax]` and returns
`m1z / (1 + z)` and `m2z / (1 + z)` together with that `z`. -/
theorem detector_to_source_frame_eq
    (analytic_integral : IntegralEngine) (m1z m2z dL H0 Om0 w0 zmin zmax : ℝ) :
    detector_to_source_frame analytic_integral m1z m2z dL H0 Om0 w0 zmin zmax =
      (z_at_value (fun z => luminosity_distance analytic_integral z H0 Om0 w0)
          dL zmin zmax).map
        fun z => (m1z / (1 + z), m2z / (1 + z), z) := by
  unfold detector_to_source_frame
  cases z_at_value (fun z => luminosity_distance analytic_integral z H0 Om0 w0)
    dL zmin zmax <;> rfl

/-- Claim C5: `FlatLambdaCDM(H0=70, Om0=0.3).efunc(z)` equals
`FlatwCDM(H0=70, Om0=0.3, w0=-1).efunc(z)` for all `z` (with the default
`zmin = 1e-4`, `zmax = 100`, `name = None`), and in general `FlatLambdaCDM`
is exactly the `FlatwCDM` construction with `w0` pinned to `-1`. -/
theorem FlatLambdaCDM_efunc_eq_FlatwCDM :
    (∀ z : ℝ, (FlatLambdaCDM 70 (0.3) (1e-4) 100 none).efunc z =
      (FlatwCDM.mk 70 (0.3) (-1) (1e-4) 100 none).efunc z) ∧
    ∀ (H0 Om0 zmin zmax : ℝ) (name : Option String),
      FlatLambdaCDM H0 Om0 zmin zmax name = FlatwCDM.mk H0 Om0 (-1) zmin zmax name :=
  ⟨fun _ => rfl, fun _ _ _ _ _ => rfl⟩

/-- Claim C6: for every integral engine, every cosmology record `c`, every
redshift `z` and every `zmax`, `c.age(z, zmax) = c.lookback_time(zmax) -
c.lookback_time(z)`. -/
theorem age_eq_lookback_time_sub (analytic_integral : IntegralEngine)
    (c : FlatwCDM) (z zmax : ℝ) :
    FlatwCDM.age analytic_integral c z zmax =
      FlatwCDM.lookback_time analytic_integral c zmax -
        FlatwCDM.lookback_time analytic_integral c z := rfl

/-- Claim C7: for every integral engine and all `z, H0, Om0, w0`,
`comoving_volume(z, H0, Om0, w0) = (4/3) * pi * comoving_distance(z, H0,
Om0, w0) ** 3` exactly. -/
theorem comoving_volume_eq (analytic_integral : IntegralEngine)
    (z H0 Om0 w0 : ℝ) :
    comoving_volume analytic_integral z H0 Om0 w0 =
      4 / 3 * Real.pi * comoving_distance analytic_integral z H0 Om0 w0 ^ 3 := rfl

/-- Claim C8: `efunc(0, Om0, w0) = 1` for every `Om0` and every `w0`. -/
theorem efunc_zero (Om0 w0 : ℝ) : efunc 0 Om0 w0 = 1 := by
  unfold efunc
  rw [add_zero, one_pow, Real.one_rpow, mul_one, mul_one,
    show Om0 + (1 - Om0) = 1 from by ring]
  exact Real.one_rpow _

/-- Folding `min` never exceeds the initial accumulator. -/
theorem foldl_min_le_init (t : List ℝ) : ∀ a : ℝ, t.foldl min a ≤ a := by
  induction t with
  | nil => intro a; exact le_refl a
  | cons b t ih => intro a; exact (ih (min a b)).trans (min_le_left _ _)

/-- Folding `min` never exceeds any list member. -/
theorem foldl_min_le_mem (t : List ℝ) : ∀ a x : ℝ, x ∈ t → t.foldl min a ≤ x := by
  induction t with
  | nil => intro a x hx; cases hx
  | cons b t ih =>
    intro a x hx
    rcases List.mem_cons.1 hx with rfl | hx
    · exact (foldl_min_le_init t (min a x)).trans (min_le_right _ _)
    · exact ih _ x hx

/-- `listMin` is a lower bound of the list. -/
theorem listMin_le_of_mem {x : ℝ} {l : List ℝ} (hx : x ∈ l) : listMin l ≤ x := by
  match l, hx with
  | a :: rest, hx =>
    rcases List.mem_cons.1 hx with rfl | hmem
    · exact foldl_min_le_init rest x
    · exact foldl_min_le_mem rest a x hmem

/-- The initial accumulator never exceeds a `max` fold. -/
theorem init_le_foldl_max (t : List ℝ) : ∀ a : ℝ, a ≤ t.foldl max a := by
  induction t with
  | nil => intro a; exact le_refl a
  | cons b t ih => intro a; exact (le_max_left _ _).trans (ih (max a b))

/-- No list member exceeds a `max` fold. -/
theorem mem_le_foldl_max (t : List ℝ) : ∀ a x : ℝ, x ∈ t → x ≤ t.foldl max a := by
  induction t with
  | nil => intro a x hx; cases hx
  | cons b t ih =>
    intro a x hx
    rcases List.mem_cons.1 hx with rfl | hx
    · exact (le_max_right _ _).trans (init_le_foldl_max t (max a x))
    · exact ih _ x hx

/-- `listMax` is an upper bound of the list. -/
theorem le_listMax_of_mem {x : ℝ} {l : List ℝ} (hx : x ∈ l) : x ≤ listMax l := by
  match l, hx with
  | a :: rest, hx =>
    rcases List.mem_cons.1 hx with rfl | hmem
    · exact init_le_foldl_max rest x
    · exact mem_le_foldl_max rest a x hmem

/-- A `min` fold whose initial accumulator is below every member returns
the accumulator. -/
theorem foldl_min_eq_init (t : List ℝ) : ∀ a : ℝ, (∀ x ∈ t, a ≤ x) → t.foldl min a = a := by
  induction t with
  | nil => intro a _; rfl
  | cons b t ih =>
    intro a h
    show t.foldl min (min a b) = a
    rw [min_eq_left (h b (List.mem_cons_self b t))]
    exact ih a fun x hx => h x (List.mem_cons_of_mem b hx)

/-- `listMin` of a list whose head is below every other member is the
head. -/
theorem listMin_cons_eq (a : ℝ) (rest : List ℝ) (h : ∀ x ∈ rest, a ≤ x) :
    listMin (a :: rest) = a :=
  foldl_min_eq_init rest a h

/-- `listMax` of a strictly increasing list is its last element. -/
theorem listMax_sorted (a : ℝ) (rest : List ℝ) (h : (a :: rest).Pairwise (· < ·)) :
    listMax (a :: rest) = rest.getLastD a := by
  induction rest generalizing a with
  | nil => rfl
  | cons b t ih =>
    have hab : a < b := (List.pairwise_cons.1 h).1 b (List.mem_cons_self b t)
    have e : listMax (a :: b :: t) = listMax (b :: t) := by
      show t.foldl max (max a b) = t.foldl max b
      rw [max_eq_right hab.le]
    rw [e, ih b (List.pairwise_cons.1 h).2, List.getLastD_cons]

/-- `getLastD l d` is either `d` or a member of `l`. -/
theorem getLastD_mem {α : Type} (l : List α) (d : α) : l.getLastD d ∈ d :: l := by
  induction l generalizing d with
  | nil => exact List.mem_cons_self d []
  | cons a t ih =>
    rw [List.getLastD_cons]
    rcases List.mem_cons.1 (ih a) with h | h
    · rw [h]; exact List.mem_cons_of_mem d (List.mem_cons_self a t)
    · exact List.mem_cons_of_mem d (List.mem_cons_of_mem a h)

/-- Last element of a map over `List.range n`. -/
theorem getLastD_map_range {α : Type} (F : ℕ → α) (n : ℕ) (hn : n ≠ 0) (d : α) :
    ((List.range n).map F).getLastD d = F (n - 1) := by
  obtain ⟨m, rfl⟩ := Nat.exists_eq_succ_of_ne_zero hn
  rw [List.range_succ, List.map_append]
  simp [List.getLastD_concat]

/-- The interpolation segment scan is bounded by any bounds on the
y-samples, provided the scan starts at a segment whose left x-sample is
below `x`. -/
theorem interpSeg_bounds (x lo hi : ℝ) (ps : List (ℝ × ℝ)) :
    ∀ p : ℝ × ℝ, p.1 ≤ x → (∀ q ∈ p :: ps, lo ≤ q.2 ∧ q.2 ≤ hi) →
      lo ≤ interpSeg x (p :: ps) ∧ interpSeg x (p :: ps) ≤ hi := by
  induction ps with
  | nil => intro p _ hall; exact hall p (List.mem_cons_self p [])
  | cons q ps ih =>
    intro p hpx hall
    have e : interpSeg x (p :: q :: ps) =
        if x ≤ q.1 then p.2 + (x - p.1) * (q.2 - p.2) / (q.1 - p.1)
        else interpSeg x (q :: ps) := rfl
    by_cases hxq : x ≤ q.1
    · rw [e, if_pos hxq]
      have hp2 := hall p (List.mem_cons_self p _)
      have hq2 := hall q (List.mem_cons_of_mem p (List.mem_cons_self q ps))
      rcases eq_or_lt_of_le (hpx.trans hxq) with heq | hlt
      · have hx0 : x - p.1 = 0 := by
          have : x = p.1 := le_antisymm (hxq.trans heq.symm.le) hpx
          rw [this, sub_self]
        rw [hx0, zero_mul, zero_div, add_zero]
        exact hp2
      · have hd : 0 < q.1 - p.1 := sub_pos.2 hlt
        have key : p.2 + (x - p.1) * (q.2 - p.2) / (q.1 - p.1) =
            ((q.1 - x) * p.2 + (x - p.1) * q.2) / (q.1 - p.1) := by
          field_simp
          ring
        rw [key]
        constructor
        · rw [le_div_iff₀ hd]
          nlinarith [mul_nonneg (sub_nonneg.2 hxq) (sub_nonneg.2 hp2.1),
            mul_nonneg (sub_nonneg.2 hpx) (sub_nonneg.2 hq2.1)]
        · rw [div_le_iff₀ hd]
          nlinarith [mul_nonneg (sub_nonneg.2 hxq) (sub_nonneg.2 hp2.2),
            mul_nonneg (sub_nonneg.2 hpx) (sub_nonneg.2 hq2.2)]
    · rw [e, if_neg hxq]
      exact ih q (le_of_not_le hxq) fun s hs => hall s (List.mem_cons_of_mem p hs)

/-- The clamped interpolation is bounded by any common bounds on the clamp
values and the y-samples. -/
theorem interp_bounds (x l r lo hi : ℝ) (pts : List (ℝ × ℝ)) (hne : pts ≠ [])
    (hl : lo ≤ l ∧ l ≤ hi) (hr : lo ≤ r ∧ r ≤ hi)
    (hall : ∀ q ∈ pts, lo ≤ q.2 ∧ q.2 ≤ hi) :
    lo ≤ interp x pts l r ∧ interp x pts l r ≤ hi := by
  match pts, hne with
  | p :: ps, _ =>
    have e : interp x (p :: ps) l r =
        if x > (ps.getLastD p).1 then r
        else if x < p.1 then l
        else interpSeg x (p :: ps) := rfl
    by_cases h1 : x > (ps.getLastD p).1
    · rw [e, if_pos h1]; exact hr
    · rw [e, if_neg h1]
      by_cases h2 : x < p.1
      · rw [if_pos h2]; exact hl
      · rw [if_neg h2]
        exact interpSeg_bounds x lo hi ps p (not_lt.1 h2) hall

/-- Claim C9 (counterexample to the claim as stated): with `zmin = -1 <
100 = zmax`, `z_at_value` returns no real value at all (`np.log10(-1)` is
NaN, so the actual code returns NaN, which lies in no interval), hence not
a value inside `[zmin, zmax]`. -/
theorem z_at_value_range_cex :
    ¬ ∀ (func : ℝ → ℝ) (fval zmin zmax : ℝ), zmin < zmax →
      ∃ z, z_at_value func fval zmin zmax = some z ∧ zmin ≤ z ∧ z ≤ zmax := by
  intro h
  obtain ⟨z, hz, _, _⟩ := h (fun z => z) 1 (-1) 100 (by norm_num)
  simp only [z_at_value] at hz
  rw [if_neg (by norm_num : ¬((0:ℝ) < -1 ∧ (0:ℝ) < 100))] at hz
  exact Option.noConfusion hz

/-- Claim C9 (amended): provided additionally `0 < zmin` (the log-spaced
grid needs positive bounds; a non-positive bound yields a NaN grid and a
NaN result), the value returned by `z_at_value` lies in `[zmin, zmax]` for
every function `func` — monotonic or not — and every target `fval`. -/
theorem z_at_value_mem_Icc (func : ℝ → ℝ) (fval zmin zmax : ℝ)
    (h0 : 0 < zmin) (hlt : zmin < zmax) :
    ∃ z, z_at_value func fval zmin zmax = some z ∧ zmin ≤ z ∧ z ≤ zmax := by
  have h0' : (0:ℝ) < zmax := h0.trans hlt
  have hb : (1:ℝ) < 10 := by norm_num
  have hall : ∀ q ∈ (logspace (Real.logb 10 zmin) (Real.logb 10 zmax) 1000).map
      (fun z => (func z, z)), zmin ≤ q.2 ∧ q.2 ≤ zmax := by
    intro q hq
    obtain ⟨zz, hzz, rfl⟩ := List.mem_map.1 hq
    simp only [logspace] at hzz
    obtain ⟨i, hi, rfl⟩ := List.mem_map.1 hzz
    have hi1000 : i < 1000 := List.mem_range.1 hi
    have hi999 : (i : ℝ) ≤ 999 := by
      have h : i ≤ 999 := by omega
      exact_mod_cast h
    have hicast : (0:ℝ) ≤ (i : ℝ) := Nat.cast_nonneg i
    have hdelta : Real.logb 10 zmin ≤ Real.logb 10 zmax :=
      Real.logb_le_logb_of_le hb h0 hlt.le
    have hlow : Real.logb 10 zmin ≤ Real.logb 10 zmin +
        (Real.logb 10 zmax - Real.logb 10 zmin) * (i : ℝ) / (((1000:ℕ) : ℝ) - 1) := by
      have : 0 ≤ (Real.logb 10 zmax - Real.logb 10 zmin) * (i : ℝ) /
          (((1000:ℕ) : ℝ) - 1) := by
        apply div_nonneg
        · exact mul_nonneg (sub_nonneg.2 hdelta) hicast
        · norm_num
      linarith
    have hhigh : Real.logb 10 zmin +
        (Real.logb 10 zmax - Real.logb 10 zmin) * (i : ℝ) / (((1000:ℕ) : ℝ) - 1) ≤
        Real.logb 10 zmax := by
      have hfrac : (i : ℝ) / (((1000:ℕ) : ℝ) - 1) ≤ 1 := by
        rw [div_le_one (by norm_num : (0:ℝ) < ((1000:ℕ) : ℝ) - 1)]
        push_cast
        linarith
      have := mul_le_of_le_one_right (sub_nonneg.2 hdelta) hfrac
      rw [mul_div_assoc]
      linarith
    constructor
    · have := (Real.rpow_le_rpow_left_iff hb).2 hlow
      rwa [Real.rpow_logb (by norm_num) (by norm_num) h0] at this
    · have := (Real.rpow_le_rpow_left_iff hb).2 hhigh
      rwa [Real.rpow_logb (by norm_num) (by norm_num) h0'] at this
  have hne : (logspace (Real.logb 10 zmin) (Real.logb 10 zmax) 1000).map
      (fun z => (func z, z)) ≠ [] := by
    simp only [logspace, ne_eq, List.map_eq_nil_iff, List.range_eq_nil]
    norm_num
  have key := interp_bounds fval zmin zmax zmin zmax _ hne
    ⟨le_refl zmin, hlt.le⟩ ⟨hlt.le, le_refl zmax⟩ hall
  refine ⟨_, ?_, key.1, key.2⟩
  simp only [z_at_value]
  rw [if_pos ⟨h0, h0'⟩]

/-- Witness for the amended claim C9 at `func = id`, `fval = 50`,
`zmin = 1e-4`, `zmax = 100`. -/
theorem z_at_value_mem_Icc_witness :
    (0:ℝ) < 1e-4 ∧ (1e-4:ℝ) < 100 ∧
      ∃ z, z_at_value (fun z => z) 50 (1e-4) 100 = some z ∧ (1e-4:ℝ) ≤ z ∧ z ≤ 100 :=
  ⟨by norm_num, by norm_num,
    z_at_value_mem_Icc (fun z => z) 50 (1e-4) 100 (by norm_num) (by norm_num)⟩

/-- One-step unfolding of `interp` on a non-empty point list. -/
theorem interp_cons (x l r : ℝ) (P0 : ℝ × ℝ) (PS : List (ℝ × ℝ)) :
    interp x (P0 :: PS) l r =
      if x > (PS.getLastD P0).1 then r
      else if x < P0.1 then l
      else interpSeg x (P0 :: PS) := rfl

/-- One-step unfolding of `interpSegSpec` on a two-or-more point list. -/
theorem interpSegSpec_cons_cons (x : ℝ) (Q0 Q1 : ℝ × ℝ) (T : List (ℝ × ℝ)) :
    interpSegSpec x (Q0 :: Q1 :: T) =
      if (Q0.1 ≤ x ∧ x ≤ Q1.1) ∨ (Q1.1 ≤ x ∧ x ≤ Q0.1) then
        Q0.2 + (x - Q0.1) * (Q1.2 - Q0.2) / (Q1.1 - Q0.1)
      else interpSegSpec x (Q1 :: T) := rfl

/-- On x-samples that are strictly increasing, the one-sided segment scan
of `np.interp` agrees with the spec's two-sided segment scan. -/
theorem interpSeg_eq_spec (x : ℝ) (ps : List (ℝ × ℝ)) :
    ∀ p : ℝ × ℝ, p.1 ≤ x → ((p :: ps).Pairwise fun u v => u.1 < v.1) →
      interpSeg x (p :: ps) = interpSegSpec x (p :: ps) := by
  induction ps with
  | nil => intro p _ _; rfl
  | cons q ps ih =>
    intro p hpx hs
    have hpq : p.1 < q.1 := (List.pairwise_cons.1 hs).1 q (List.mem_cons_self q ps)
    have e1 : interpSeg x (p :: q :: ps) =
        if x ≤ q.1 then p.2 + (x - p.1) * (q.2 - p.2) / (q.1 - p.1)
        else interpSeg x (q :: ps) := rfl
    by_cases hxq : x ≤ q.1
    · rw [e1, interpSegSpec_cons_cons, if_pos hxq, if_pos (Or.inl ⟨hpx, hxq⟩)]
    · have hqx : q.1 ≤ x := le_of_not_le hxq
      have hcond : ¬((p.1 ≤ x ∧ x ≤ q.1) ∨ (q.1 ≤ x ∧ x ≤ p.1)) := by
        rintro (⟨_, hc⟩ | ⟨_, hc⟩)
        · exact hxq hc
        · exact hxq (hc.trans hpq.le)
      rw [e1, interpSegSpec_cons_cons, if_neg hxq, if_neg hcond]
      exact ih q hqx (List.pairwise_cons.1 hs).2

/-- On strictly increasing x-samples, `np.interp`'s boundary checks
against the first and last x-sample coincide with the spec's clamping at
the minimum and maximum of the x-samples, and its segment scan coincides
with the spec's scan. -/
theorem interp_eq_minmax_clamp (x l r : ℝ) (pts : List (ℝ × ℝ)) (hne : pts ≠ [])
    (hs : pts.Pairwise fun u v => u.1 < v.1) :
    interp x pts l r =
      if x < listMin (pts.map Prod.fst) then l
      else if x > listMax (pts.map Prod.fst) then r
      else interpSegSpec x pts := by
  match pts, hne with
  | p :: ps, _ =>
    have hforall : ∀ q ∈ ps, p.1 < q.1 := (List.pairwise_cons.1 hs).1
    have hmin : listMin ((p :: ps).map Prod.fst) = p.1 := by
      rw [List.map_cons]
      apply listMin_cons_eq
      rintro w hw
      obtain ⟨s, hsm, rfl⟩ := List.mem_map.1 hw
      exact (hforall s hsm).le
    have hsfst : (p.1 :: ps.map Prod.fst).Pairwise (· < ·) := by
      have hmapped := hs.map Prod.fst fun u v huv => huv
      rwa [List.map_cons] at hmapped
    have hmax : listMax ((p :: ps).map Prod.fst) = (ps.getLastD p).1 := by
      rw [List.map_cons, listMax_sorted _ _ hsfst]
      exact List.getLastD_map Prod.fst ps p
    have hple : p.1 ≤ (ps.getLastD p).1 := by
      rcases List.mem_cons.1 (getLastD_mem ps p) with h | h
      · rw [h]
      · exact (hforall _ h).le
    rw [interp_cons, hmin, hmax]
    by_cases h2 : x < p.1
    · have h1 : ¬ x > (ps.getLastD p).1 := not_lt.2 ((le_of_lt h2).trans hple)
      rw [if_neg h1, if_pos h2, if_pos h2]
    · by_cases h1 : x > (ps.getLastD p).1
      · rw [if_pos h1, if_neg h2, if_pos h1]
      · rw [if_neg h1, if_neg h2, if_neg h2, if_neg h1]
        exact interpSeg_eq_spec x ps p (not_lt.1 h2) hs

/-- The spec grid is strictly increasing when `0 < zmin < zmax`. -/
theorem specGrid_pairwise (zmin zmax : ℝ) (h0 : 0 < zmin) (hlt : zmin < zmax) :
    (specGrid zmin zmax).Pairwise (· < ·) := by
  have hb : (1:ℝ) < 10 := by norm_num
  have hab : Real.logb 10 zmin < Real.logb 10 zmax := Real.logb_lt_logb hb h0 hlt
  have hpos : 0 < Real.logb 10 zmax - Real.logb 10 zmin := sub_pos.2 hab
  unfold specGrid
  refine (List.pairwise_lt_range 1000).map _ ?_
  intro i j hij
  apply (Real.rpow_lt_rpow_left_iff hb).2
  apply add_lt_add_left
  have hij' : (i:ℝ) < (j:ℝ) := by exact_mod_cast hij
  have h9 : (0:ℝ) < 999 := by norm_num
  rw [div_lt_div_iff_of_pos_right h9]
  exact mul_lt_mul_of_pos_left hij' hpos

/-- The grid built by `z_at_value` (numpy logspace between the log-bounds)
is the spec's 1000-point log-uniform grid. -/
theorem logspace_eq_specGrid (zmin zmax : ℝ) :
    logspace (Real.logb 10 zmin) (Real.logb 10 zmax) 1000 = specGrid zmin zmax := by
  unfold logspace specGrid
  apply List.map_congr_left
  intro i _
  congr 1
  push_cast
  norm_num

set_option maxRecDepth 4000 in
/-- A claim theorem below needs the first two grid points and the last
grid point explicitly: `List.range 1000` decomposed. -/
theorem range_1000_eq :
    List.range 1000 = 0 :: 1 :: (List.range 998).map (fun i => i + 2) := by
  decide

/-- Mapping over `List.range 1000`, decomposed into the first two points
and the mapped tail. -/
theorem map_range_1000_decomp {α : Type} (F : ℕ → α) :
    (List.range 1000).map F =
      F 0 :: F 1 :: ((List.range 998).map fun i => F (i + 2)) := by
  rw [range_1000_eq]
  simp [List.map_map, Function.comp]

/-- The last element of the mapped tail from `map_range_1000_decomp`. -/
theorem map_range_1000_getLastD {α : Type} (F : ℕ → α) (d : α) :
    (((List.range 998).map fun i => F (i + 2)).getLastD d) = F 999 := by
  rw [getLastD_map_range (fun i : ℕ => F (i + 2)) 998 (by norm_num) d]

set_option maxRecDepth 8000 in
/-- Claim C2 (counterexample to the claim as stated, which quantifies over
every monotonic function): for the monotonically decreasing function
`z ↦ -z` and the target `-(1e-4)` — which equals the maximum grid function
value, so the spec procedure returns the grid head `zmin = 1e-4` — the code
instead returns `zmax = 100`: numpy's first boundary check compares the
target against the last array entry, which for a decreasing value grid is
its minimum, so every in-range target is clamped to `zmax`. -/
theorem z_at_value_monotonic_cex :
    ¬ ∀ func : ℝ → ℝ, (Monotone func ∨ Antitone func) → ∀ fval : ℝ,
      z_at_value func fval (1e-4) 100 =
        some (z_at_value_claimed func fval (1e-4) 100) := by
  intro h
  have hanti : Antitone (fun z : ℝ => -z) := fun u v huv => neg_le_neg huv
  have hinst := h (fun z => -z) (Or.inr hanti) (-(1e-4))
  have hlast : (10:ℝ) ^ (Real.logb 10 (1e-4:ℝ) +
      (Real.logb 10 (100:ℝ) - Real.logb 10 (1e-4:ℝ)) * (999:ℝ) / ((1000:ℝ) - 1)) = 100 := by
    rw [show Real.logb 10 (1e-4:ℝ) +
        (Real.logb 10 (100:ℝ) - Real.logb 10 (1e-4:ℝ)) * (999:ℝ) / ((1000:ℝ) - 1) =
        Real.logb 10 (100:ℝ) from by ring]
    exact Real.rpow_logb (by norm_num) (by norm_num) (by norm_num)
  have hhead : (10:ℝ) ^ (Real.logb 10 (1e-4:ℝ) +
      (Real.logb 10 (100:ℝ) - Real.logb 10 (1e-4:ℝ)) * (0:ℝ) / 999) = 1e-4 := by
    rw [show Real.logb 10 (1e-4:ℝ) +
        (Real.logb 10 (100:ℝ) - Real.logb 10 (1e-4:ℝ)) * (0:ℝ) / 999 =
        Real.logb 10 (1e-4:ℝ) from by ring]
    exact Real.rpow_logb (by norm_num) (by norm_num) (by norm_num)
  have hsecond : (1e-4:ℝ) ≤ (10:ℝ) ^ (Real.logb 10 (1e-4:ℝ) +
      (Real.logb 10 (100:ℝ) - Real.logb 10 (1e-4:ℝ)) * (1:ℝ) / 999) := by
    have hd : Real.logb 10 (1e-4:ℝ) ≤ Real.logb 10 (100:ℝ) :=
      Real.logb_le_logb_of_le (by norm_num) (by norm_num) (by norm_num)
    have hq : (0:ℝ) ≤ (Real.logb 10 (100:ℝ) - Real.logb 10 (1e-4:ℝ)) * 1 / 999 :=
      div_nonneg (by nlinarith) (by norm_num)
    have hmono := (Real.rpow_le_rpow_left_iff (by norm_num : (1:ℝ) < 10)).2
      (by linarith : Real.logb 10 (1e-4:ℝ) ≤ Real.logb 10 (1e-4:ℝ) +
        (Real.logb 10 (100:ℝ) - Real.logb 10 (1e-4:ℝ)) * (1:ℝ) / 999)
    rwa [Real.rpow_logb (by norm_num) (by norm_num) (by norm_num)] at hmono
  have hcode : z_at_value (fun z : ℝ => -z) (-(1e-4)) (1e-4) 100 = some 100 := by
    simp only [z_at_value]
    rw [if_pos (⟨by norm_num, by norm_num⟩ : (0:ℝ) < 1e-4 ∧ (0:ℝ) < 100)]
    congr 1
    rw [logspace, List.map_map, map_range_1000_decomp, interp_cons,
      List.getLastD_cons, map_range_1000_getLastD]
    simp only [Function.comp_apply]
    rw [if_pos]
    push_cast
    rw [hlast]
    norm_num
  have hclaim : z_at_value_claimed (fun z : ℝ => -z) (-(1e-4)) (1e-4) 100 = 1e-4 := by
    have hmem : (-(1e-4):ℝ) ∈ (specGrid (1e-4) 100).map fun z : ℝ => -z := by
      have h2 : ((1e-4:ℝ)) ∈ specGrid (1e-4) 100 := by
        simp only [specGrid]
        refine List.mem_map.2 ⟨0, List.mem_range.2 (by norm_num), ?_⟩
        push_cast
        exact hhead
      have h3 := List.mem_map_of_mem (fun z : ℝ => -z) h2
      simpa using h3
    simp only [z_at_value_claimed]
    rw [if_neg (not_lt.2 (listMin_le_of_mem hmem)),
      if_neg (not_lt.2 (le_listMax_of_mem hmem))]
    simp only [specGrid, List.map_map]
    rw [map_range_1000_decomp, interpSegSpec_cons_cons]
    simp only [Function.comp_apply]
    rw [if_pos]
    · push_cast
      rw [hhead]
      ring
    · refine Or.inr ⟨?_, ?_⟩
      · push_cast
        exact neg_le_neg hsecond
      · push_cast
        rw [hhead]
  rw [hcode, hclaim] at hinst
  have heq : (100:ℝ) = 1e-4 := Option.some.inj hinst
  norm_num at heq

set_option maxRecDepth 8000 in
/-- Claim C2 (amended: the function must be monotonically increasing; for
monotonically decreasing functions the counterexample above shows the
claim fails): for every strictly increasing `func` and every `fval`,
`z_at_value(func, fval, zmin=1e-4, zmax=100)` returns exactly the spec
procedure `z_at_value_claimed`: evaluate `func` on the fixed grid of 1000
log-uniformly spaced points and linearly interpolate `fval` against the
grid of function values, clamping to `zmin` below the grid's minimum
function value and to `zmax` above its maximum, with no extrapolation and
no iterative refinement. -/
theorem z_at_value_eq_claimed_of_strictMono (func : ℝ → ℝ) (hf : StrictMono func)
    (fval : ℝ) :
    z_at_value func fval (1e-4) 100 =
      some (z_at_value_claimed func fval (1e-4) 100) := by
  have h0 : (0:ℝ) < 1e-4 := by norm_num
  have hlt : (1e-4:ℝ) < 100 := by norm_num
  simp only [z_at_value]
  rw [if_pos (⟨h0, by norm_num⟩ : (0:ℝ) < 1e-4 ∧ (0:ℝ) < 100), logspace_eq_specGrid]
  congr 1
  have hgl : (specGrid (1e-4) 100).Pairwise (· < ·) := specGrid_pairwise _ _ h0 hlt
  have hpair : ((specGrid (1e-4) 100).map fun z => (func z, z)).Pairwise
      (fun u v => u.1 < v.1) := hgl.map _ fun u v huv => hf huv
  have hne : (specGrid (1e-4) 100).map (fun z => (func z, z)) ≠ [] := by
    simp only [specGrid, ne_eq, List.map_eq_nil_iff, List.range_eq_nil]
    norm_num
  rw [interp_eq_minmax_clamp fval (1e-4) 100 _ hne hpair]
  have hmf : ((specGrid (1e-4) 100).map fun z => (func z, z)).map Prod.fst =
      (specGrid (1e-4) 100).map func := by
    rw [List.map_map]
    rfl
  rw [hmf]
  rfl

/-- Witness for the amended claim C2 at the strictly increasing identity
function and target 1. -/
theorem z_at_value_eq_claimed_witness :
    StrictMono (fun z : ℝ => z) ∧
      z_at_value (fun z : ℝ => z) 1 (1e-4) 100 =
        some (z_at_value_claimed (fun z : ℝ => z) 1 (1e-4) 100) :=
  ⟨fun _ _ huv => huv,
    z_at_value_eq_claimed_of_strictMono (fun z => z) (fun _ _ huv => huv) 1⟩

/-- Claim C10: for every integral engine, every cosmology record `c` and
every `z`, `c.dLdH(z) * c.hubble_distance = c.luminosity_distance(z)`. -/
theorem dLdH_mul_hubble_distance (analytic_integral : IntegralEngine)
    (c : FlatwCDM) (z : ℝ) :
    FlatwCDM.dLdH analytic_integral c z * FlatwCDM.hubble_distance c =
      FlatwCDM.luminosity_distance analytic_integral c z := by
  by_cases h : FlatwCDM.hubble_distance c = 0
  · rw [FlatwCDM.dLdH, h, mul_zero]
    unfold FlatwCDM.luminosity_distance luminosity_distance comoving_distance
    have h0 : wcosmo.hubble_distance c.H0 = 0 := h
    rw [h0]
    ring
  · rw [FlatwCDM.dLdH, div_mul_cancel₀ _ h]

end wcosmo
